import Mathlib

/-!
Verification of the runtime lock/note primitives in `src/pkg/runtime/lock_sema.c`.

The file contains a shallow embedding of the two data structures of the source,
the `Mutex` and the one-shot `Note`, together with the operations the claims
are about.

The `Mutex` part is modelled as an interleaving transition system over an
arbitrary number `n` of worker threads.  Each thread runs the client program
`lock; counter++; unlock` forever.  A step of the system is one shared-memory
access of one thread (an atomic load or a compare-and-swap on the mutex state
word `l->key`), which is the granularity at which the hardware serialises the
C code.  Thread-local book-keeping of the source that touches no shared state
(the spin delays `procyield`/`osyield`, `m->locks`, `waitsema` creation) is
modelled separately by the sequential functions further below (`lockRun`,
`lockEntryLocks`, `unlockEpilogue`), since it cannot affect the interleaving
of shared accesses.

The `Note` functions (`runtime·notewakeup`, `runtime·notesleep`, `notetsleep`)
are modelled as sequential functions over the note word, parameterised where
needed by an oracle describing the moments at which the racing
`runtime·notewakeup` of the other party fires.
-/

namespace LockSema

/-- The tagged state word of a `Mutex` (`l->key` in the source): the low bit is
the LOCKED flag, the remaining bits are a pointer to the head of the intrusive
list of waiting M's (or nil).  Threads are identified by `Fin n`. -/
structure Word (n : Nat) where
  locked : Bool
  head : Option (Fin n)
deriving DecidableEq

/-- The program counter of one worker thread running `lock; counter++; unlock`
in a loop.  Each constructor is "about to perform one shared-memory access" of
`runtime·lock` / `runtime·unlock` in `lock_sema.c`:

* `acq lv`: about to execute `runtime·casp(&l->key, v, v|LOCKED)` with the
  previously read value `v = lv` (line 46 with `lv = ⟨false, none⟩`, the
  speculative fast path, and line 62, the slow-path grab).
* `load`: about to execute `v = runtime·atomicloadp(&l->key)` (lines 59 and
  79) and branch on the LOCKED bit of the result.
* `enq lv`: about to execute `g->m->nextwaitm = v&~LOCKED` followed by
  `runtime·casp(&l->key, v, g->m|LOCKED)` (lines 76-77).  The store to the
  thread's own `nextwaitm` is folded into the CAS step: while the thread is
  not on the published list nothing reads its `nextwaitm` field.
* `parked`: blocked in `runtime·semasleep(-1)` (line 85) until its semaphore
  count is positive.
* `cs1`/`cs2 tmp`: the client critical section, an increment of the shared
  counter split into its read (`tmp := counter`) and write
  (`counter := tmp + 1`) so that lost updates are representable.
* `unl`: about to execute `v = runtime·atomicloadp(&l->key)` in
  `runtime·unlock` (line 99) and branch.
* `uncas`: about to execute `runtime·casp(&l->key, LOCKED, nil)` (line 101).
* `popcas lv`: about to pop the head waiter `mp = v&~LOCKED` by
  `runtime·casp(&l->key, v, mp->nextwaitm)` and wake it (lines 106-110). -/
inductive PC (n : Nat) where
  | acq (lv : Word n)
  | load
  | enq (lv : Word n)
  | parked
  | cs1
  | cs2 (tmp : Nat)
  | unl
  | uncas
  | popcas (lv : Word n)
deriving DecidableEq

/-- A configuration of the whole system.  `key`, `counter`, `nextw` and `sem`
are the shared program state (`l->key`, the client counter, the `m->nextwaitm`
fields and the per-thread semaphore counts).  `total` is a ghost counter of
completed increments, `waitq` is a ghost copy of the wait list threaded
through `key.head`/`nextw`, and `inRelease` is a ghost flag that is set while
an unlock has popped a waiter and no thread has re-acquired the lock yet. -/
structure Config (n : Nat) where
  key : Word n
  counter : Nat
  total : Nat
  inRelease : Bool
  pc : Fin n → PC n
  nextw : Fin n → Option (Fin n)
  sem : Fin n → Nat
  waitq : List (Fin n)

/-- The initial configuration: a zero-valued mutex (unlocked, empty list),
every thread about to run the speculative fast-path CAS of `runtime·lock`. -/
def initConfig (n : Nat) : Config n where
  key := ⟨false, none⟩
  counter := 0
  total := 0
  inRelease := false
  pc := fun _ => .acq ⟨false, none⟩
  nextw := fun _ => none
  sem := fun _ => 0
  waitq := []

/-- One atomic step of thread `t`, a direct transcription of the
shared-memory accesses of `runtime·lock` (lines 36-90) and `runtime·unlock`
(lines 92-119) of `lock_sema.c`, plus the two halves of the client's
`counter++`.  A thread that cannot move (parked with an empty semaphore, or
the unreachable nil-dereference `mp = nil` of line 106-107) stutters. -/
def stepAt {n : Nat} (c : Config n) (t : Fin n) : PC n → Config n
  | .acq lv =>
    -- casp(&l->key, v, v|LOCKED): succeeds iff the word still equals v.
    if c.key = lv then
      { c with key := ⟨true, lv.head⟩, inRelease := false,
               pc := Function.update c.pc t .cs1 }
    else
      { c with pc := Function.update c.pc t .load }
  | .load =>
    -- v = atomicloadp(&l->key); branch on v&LOCKED.  The spin delays between
    -- the branch and the next shared access are thread-local (see lockRun).
    if c.key.locked then
      { c with pc := Function.update c.pc t (.enq c.key) }
    else
      { c with pc := Function.update c.pc t (.acq c.key) }
  | .enq lv =>
    -- nextwaitm = v&~LOCKED; casp(&l->key, v, m|LOCKED).
    if c.key = lv then
      { c with key := ⟨true, some t⟩,
               nextw := Function.update c.nextw t lv.head,
               pc := Function.update c.pc t (if lv.locked then .parked else .load),
               waitq := t :: c.waitq }
    else
      { c with pc := Function.update c.pc t .load }
  | .parked =>
    -- semasleep(-1): consume one semaphore count once available.
    if c.sem t = 0 then c
    else
      { c with sem := Function.update c.sem t (c.sem t - 1),
               pc := Function.update c.pc t .load }
  | .cs1 =>
    { c with pc := Function.update c.pc t (.cs2 c.counter) }
  | .cs2 tmp =>
    { c with counter := tmp + 1, total := c.total + 1,
             pc := Function.update c.pc t .unl }
  | .unl =>
    -- v = atomicloadp(&l->key); if (v == LOCKED) ... else pop a waiter.
    if c.key = (⟨true, none⟩ : Word n) then
      { c with pc := Function.update c.pc t .uncas }
    else
      { c with pc := Function.update c.pc t (.popcas c.key) }
  | .uncas =>
    -- casp(&l->key, LOCKED, nil).
    if c.key = (⟨true, none⟩ : Word n) then
      { c with key := ⟨false, none⟩,
               pc := Function.update c.pc t (.acq ⟨false, none⟩) }
    else
      { c with pc := Function.update c.pc t .unl }
  | .popcas lv =>
    match lv.head with
    | none => c
    | some mp =>
      -- casp(&l->key, v, mp->nextwaitm); on success semawakeup(mp).  The new
      -- word is a plain pointer, so its LOCKED bit is clear.
      if c.key = lv then
        { c with key := ⟨false, c.nextw mp⟩,
                 sem := Function.update c.sem mp (c.sem mp + 1),
                 inRelease := true,
                 waitq := c.waitq.tail,
                 pc := Function.update c.pc t (.acq ⟨false, none⟩) }
      else
        { c with pc := Function.update c.pc t .unl }

/-- One atomic step of thread `t` (see `stepAt`). -/
def stepThread {n : Nat} (c : Config n) (t : Fin n) : Config n :=
  stepAt c t (c.pc t)

/-- The configurations reachable from the zero-valued initial state by any
interleaving of thread steps. -/
inductive Reachable (n : Nat) : Config n → Prop where
  | init : Reachable n (initConfig n)
  | step {c : Config n} (t : Fin n) : Reachable n c → Reachable n (stepThread c t)

/-- Runs a schedule (a list of thread ids, executed left to right). -/
def runSched {n : Nat} (c : Config n) (s : List (Fin n)) : Config n :=
  s.foldl stepThread c

/-- Checks that the list `l` is exactly the intrusive wait list obtained by
starting at the head pointer `h` and following the `nextw` links. -/
def chainb {n : Nat} (nw : Fin n → Option (Fin n)) :
    Option (Fin n) → List (Fin n) → Bool
  | h, [] => decide (h = none)
  | h, u :: l => decide (h = some u) && chainb nw (nw u) l

/-- A thread holds the mutex when it is between its successful acquisition
CAS and its successful release CAS, i.e. in the critical section or inside
`runtime·unlock`. -/
def holderB {n : Nat} : PC n → Bool
  | .cs1 => true
  | .cs2 _ => true
  | .unl => true
  | .uncas => true
  | .popcas _ => true
  | _ => false

/-- Thread `t` holds the mutex in configuration `c`. -/
def isHolder {n : Nat} (c : Config n) (t : Fin n) : Bool :=
  holderB (c.pc t)

/-- The inductive invariant of the mutex system.  Besides the properties the
claims are about (mutual exclusion, the unlocked/empty-list law, integrity of
the wait list) it carries the auxiliary facts needed to make the whole
conjunction closed under `stepThread`. -/
structure Inv {n : Nat} (c : Config n) : Prop where
  uniq : ∀ t u, isHolder c t = true → isHolder c u = true → t = u
  noHolder : c.key.locked = false → ∀ t, isHolder c t = false
  chain : chainb c.nextw c.key.head c.waitq = true
  nodup : c.waitq.Nodup
  queued : ∀ t, t ∈ c.waitq → c.pc t = PC.parked ∧ c.sem t = 0
  semle : ∀ t, c.sem t ≤ 1
  semparked : ∀ t, 0 < c.sem t → c.pc t = PC.parked
  cnt : c.counter = c.total
  cs2tmp : ∀ t tmp, c.pc t = PC.cs2 tmp → tmp = c.counter
  rel : c.key.locked = false → c.key.head = none ∨ c.inRelease = true
  relLocked : c.inRelease = true → c.key.locked = false
  acqlv : ∀ t lv, c.pc t = PC.acq lv → lv.locked = false
  enqlv : ∀ t lv, c.pc t = PC.enq lv → lv.locked = true


/-- The LIFO scenario of the spec: thread 0 (the holder) takes the lock and
threads 1, 2, 3 (A, B, C) block on it in that order while it is held.  Each
waiter takes three steps: a failed fast-path grab, the reload, and the
successful enqueue CAS. -/
def lifoC1 : Config 4 := runSched (initConfig 4) [0, 1, 1, 1, 2, 2, 2, 3, 3, 3]

/-- First release: the holder finishes its critical section (two steps) and
unlocks (the load and the pop CAS), waking the head waiter. -/
def lifoC2 : Config 4 := runSched lifoC1 [0, 0, 0, 0]

/-- Second release: the holder re-acquires (failed fast path, reload,
slow-path grab preserving the wait list) and releases again. -/
def lifoC3 : Config 4 := runSched lifoC2 [0, 0, 0, 0, 0, 0, 0]

/-- Third release, waking the last waiter. -/
def lifoC4 : Config 4 := runSched lifoC3 [0, 0, 0, 0, 0, 0, 0]

/-- The state word of a `Note` (`n->key`): EMPTY (nil), WOKEN (the LOCKED
value), or the identity of the registered waiting M. -/
inductive NoteKey where
  | empty
  | woken
  | reg (id : Nat)
deriving DecidableEq

/-- What `runtime·notewakeup` does besides installing WOKEN. -/
inductive WakeAct where
  | nothing
  | wake (id : Nat)
  | doubleWakeup
deriving DecidableEq

/-- `runtime·notewakeup` (lines 128-148 of `lock_sema.c`): atomically swap
WOKEN into `n->key` (the CAS retry loop of lines 133-135 is one atomic
exchange) and act on the value replaced: nil means nobody was waiting yet, a
registered M gets `semawakeup(mp)`, and WOKEN aborts with
`notewakeup - double wakeup`. -/
def notewakeup (k : NoteKey) : NoteKey × WakeAct :=
  (.woken,
    match k with
    | .empty => .nothing
    | .woken => .doubleWakeup
    | .reg i => .wake i)

/-- The outcome of the registration step of `runtime·notesleep` (lines
166-176) and of `notetsleep` (lines 188-192): the caller parks, returns
immediately, or aborts with `waitm out of sync`. -/
inductive SleepAct where
  | park
  | immediate
  | outOfSync
deriving DecidableEq

/-- The registration step shared by `runtime·notesleep` and `notetsleep`:
`casp(&n->key, nil, g->m)`; on failure the key must be WOKEN (the signal
arrived first, return without parking), anything else aborts; on success
the thread is registered and parks on its semaphore. -/
def notesleepReg (self : Nat) (k : NoteKey) : NoteKey × SleepAct :=
  match k with
  | .empty => (.reg self, .park)
  | .woken => (.woken, .immediate)
  | .reg i => (.reg i, .outOfSync)

/-- A note word together with the waiting thread's semaphore count. -/
structure NoteSt where
  key : NoteKey
  sem : Nat
deriving DecidableEq

/-- Effect of the signaller's `runtime·notewakeup` on that pair: install
WOKEN and, if the value replaced was the registered waiter `self`, grant one
semaphore count (`semawakeup`). -/
def wakeupSt (self : Nat) (s : NoteSt) : NoteSt :=
  match s.key with
  | .reg i => if i = self then ⟨.woken, s.sem + 1⟩ else ⟨.woken, s.sem⟩
  | _ => ⟨.woken, s.sem⟩

/-- The result of `notetsleep`: satisfied (return value true), timed out
(return value false), or one of its two fatal aborts
(`unable to acquire - semaphore out of sync` at line 236 and
`unexpected waitm - semaphore out of sync` at line 240). -/
inductive TWOut where
  | satisfied
  | timedOut
  | semOutOfSync
  | waitmOutOfSync
deriving DecidableEq

/-- Interference helper: if the racing signal is still pending and the
oracle bit says it fires at this point, apply `wakeupSt`; the signal fires
at most once. -/
def fireIf (self : Nat) (s : NoteSt) (pending f : Bool) : NoteSt × Bool :=
  if pending && f then (wakeupSt self s, false) else (s, pending)

/-- The cancellation path of `notetsleep` (lines 225-241), run once the
deadline has passed while the thread is still registered.  Each oracle entry
`(f1, f2)` says whether the racing `notewakeup` fires before this
iteration's load of `n->key`, and between that load and the unregistering
CAS.  An empty oracle means the signal fires no more, in which case one more
iteration is deterministic.  Per iteration, following the source: load
`mp = n->key`; if it is this thread's own M, try `casp(&n->key, mp, nil)`
and return "timed out" on success (retrying the loop on failure); if it is
WOKEN, consume the concurrently granted count with one more `semasleep(-1)`
(fatal if the count is absent) and return "satisfied"; any other value is
fatal. -/
def cancelLoop (self : Nat) :
    NoteSt → Bool → List (Bool × Bool) → TWOut × NoteSt
  | s, _, [] =>
    match s.key with
    | .reg i =>
      if i = self then (.timedOut, ⟨.empty, s.sem⟩) else (.waitmOutOfSync, s)
    | .woken =>
      if s.sem = 0 then (.semOutOfSync, s)
      else (.satisfied, ⟨.woken, s.sem - 1⟩)
    | .empty => (.waitmOutOfSync, s)
  | s, pending, (f1, f2) :: rest =>
    let p1 := fireIf self s pending f1
    match p1.1.key with
    | .reg i =>
      if i = self then
        let p2 := fireIf self p1.1 p1.2 f2
        if p2.1.key = NoteKey.reg self then (.timedOut, ⟨.empty, p2.1.sem⟩)
        else cancelLoop self p2.1 p2.2 rest
      else (.waitmOutOfSync, p1.1)
    | .woken =>
      if p1.1.sem = 0 then (.semOutOfSync, p1.1)
      else (.satisfied, ⟨.woken, p1.1.sem - 1⟩)
    | .empty => (.waitmOutOfSync, p1.1)

/-- The timed wait loop of `notetsleep` (lines 202-219) driven by its
oracle: each entry `(acq, now)` is one iteration, giving the result of
`semasleep(ns)` (acquired, or timed out / interrupted) and the value
subsequently read from `runtime·nanotime()`.  The result is `none` when the
oracle is exhausted before the loop exits (the call has not returned),
`(true, now)` when the semaphore was acquired, and `(false, now)` when the
recomputed remaining time `deadline - now` was `<= 0` and the loop broke to
the cancellation path — the only way the loop is left without the semaphore. -/
def tsleepLoop (deadline : Int) : List (Bool × Int) → Option (Bool × Int)
  | [] => none
  | (acq, now) :: rest =>
    if acq then some (true, now)
    else if deadline - now ≤ 0 then some (false, now)
    else tsleepLoop deadline rest

/-- `runtime·notetsleep(n, ns)` with `ns >= 0`, specialised to a run in
which no signal is ever delivered, entered on a cleared note: the
registration CAS from EMPTY succeeds (line 188), the deadline is
`t0 + ns` where `t0` is the entry reading of `runtime·nanotime()`
(line 202), the timed loop runs on its oracle, and if it breaks, the
cancellation path runs without interference.  The result carries the
outcome, the final note/semaphore state, and the clock reading at which the
loop exited. -/
def notetsleepNoSignal (self : Nat) (ns t0 : Int)
    (iters : List (Bool × Int)) : Option (TWOut × NoteSt × Int) :=
  match tsleepLoop (t0 + ns) iters with
  | none => none
  | some (true, now) => some (.satisfied, ⟨.woken, 0⟩, now)
  | some (false, now) =>
    some ((cancelLoop self ⟨.reg self, 0⟩ false []).1,
          (cancelLoop self ⟨.reg self, 0⟩ false []).2, now)

/-- The stack-preemption sentinel.  Modelled from the spec: `stack.h`, from
which the source takes this constant, is not part of this repository
snapshot; the spec only requires that a deferred preemption request is
re-asserted by storing this sentinel into `g->stackguard0`, so the concrete
value is irrelevant to the claims (in the original tree it is the uintptr
cast of -1314). -/
def StackPreempt : Int := -1314

/-- The lock-count epilogue of `runtime·unlock` (lines 115-118): decrement
`m->locks`, abort with `runtime·unlock: lock count` if the result is
negative, and if it is exactly zero while `g->preempt` is set, store
`StackPreempt` into `g->stackguard0`.  Returns the new lock count, the new
`stackguard0`, and whether the fatal path was taken. -/
def unlockEpilogue (locks : Int) (preempt : Bool) (sg0 : Int) :
    Int × Int × Bool :=
  let l := locks - 1
  if l < 0 then (l, sg0, true)
  else if l = 0 ∧ preempt = true then (l, StackPreempt, false)
  else (l, sg0, false)

/-- The lock-count prologue of `runtime·lock` (lines 42-43):
`if(g->m->locks++ < 0) throw`. -/
def lockEntryLocks (locks : Int) : Int × Bool :=
  (locks + 1, decide (locks < 0))

/-- Spin constants of `lock_sema.c` (lines 27-34). -/
def ACTIVE_SPIN : Nat := 4

/-- Busy iterations per `procyield` round (line 32). -/
def ACTIVE_SPIN_CNT : Nat := 30

/-- OS-yield rounds before queueing (line 33). -/
def PASSIVE_SPIN : Nat := 1

/-- The spin budget chosen at lines 54-56: `ACTIVE_SPIN` on a multi-worker
system (`runtime·ncpu > 1`), zero on a uniprocessor. -/
def spinFor (ncpu : Nat) : Nat := if 1 < ncpu then ACTIVE_SPIN else 0

/-- Observable actions of the slow path of `runtime·lock`. -/
inductive LAct where
  | procyield (cnt : Nat)
  | osyield
  | enqueue
  | park
  | acquire
deriving DecidableEq

/-- Control points of the slow path of `runtime·lock` (lines 58-89), at the
granularity of its shared-memory accesses. -/
inductive LPC where
  | top
  | acq
  | sel
  | enq
  | park
deriving DecidableEq

/-- Sequential interpreter for one thread in the slow path of
`runtime·lock` (lines 58-89), recording the actions it performs.  The
oracle stream feeds one boolean per shared-memory access: for the loads,
whether the LOCKED bit of the value read was set; for the CASes, whether
they succeeded.  `top` is the load at line 59, `acq` the grab CAS at
line 62 (label `unlocked`), `sel` the selection at lines 66-70, `enq` the
enqueue CAS at line 77 (whose failure re-reads the word, line 79, and
either goes back to the grab or retries the enqueue), and `park` the
`semasleep(-1)` at line 85.  The spin counter `i` follows the source: set
to 0 after a failed grab (line 64) and by line 86 after the park (whence
the following `for`-increment resumes the next iteration with `i = 1`),
incremented by the `for` loop after each yield, and otherwise untouched. -/
def lockRun (spin : Nat) : Nat → LPC → Nat → List Bool → List LAct
  | 0, _, _, _ => []
  | fuel + 1, .top, i, o =>
    match o with
    | [] => []
    | b :: o' =>
      if b then lockRun spin fuel .sel i o'
      else lockRun spin fuel .acq i o'
  | fuel + 1, .acq, _, o =>
    match o with
    | [] => []
    | b :: o' =>
      if b then [.acquire]
      else lockRun spin fuel .sel 0 o'
  | fuel + 1, .sel, i, o =>
    if i < spin then
      LAct.procyield ACTIVE_SPIN_CNT :: lockRun spin fuel .top (i + 1) o
    else if i < spin + PASSIVE_SPIN then
      LAct.osyield :: lockRun spin fuel .top (i + 1) o
    else lockRun spin fuel .enq i o
  | fuel + 1, .enq, i, o =>
    match o with
    | [] => []
    | b :: o' =>
      if b then LAct.enqueue :: lockRun spin fuel .park i o'
      else
        match o' with
        | [] => []
        | b2 :: o'' =>
          if b2 then lockRun spin fuel .enq i o''
          else lockRun spin fuel .acq i o''
  | fuel + 1, .park, _, o => LAct.park :: lockRun spin fuel .top 1 o

theorem chainb_update_not_mem {n : Nat} (nw : Fin n → Option (Fin n))
    (t : Fin n) (v : Option (Fin n)) (l : List (Fin n)) (hl : t ∉ l)
    (h : Option (Fin n)) :
    chainb (Function.update nw t v) h l = chainb nw h l := by
  induction l generalizing h with
  | nil => rfl
  | cons u l ih =>
    have hut : u ≠ t := fun he => hl (he ▸ List.mem_cons_self u l)
    have hl' : t ∉ l := fun hm => hl (List.mem_cons_of_mem u hm)
    simp only [chainb, Function.update_apply, if_neg hut, ih hl']

theorem chainb_none_nil {n : Nat} (nw : Fin n → Option (Fin n))
    (l : List (Fin n)) (h : chainb nw none l = true) : l = [] := by
  cases l with
  | nil => rfl
  | cons u l => simp [chainb] at h

theorem chainb_some_cons {n : Nat} (nw : Fin n → Option (Fin n)) (m : Fin n)
    (l : List (Fin n)) (h : chainb nw (some m) l = true) :
    ∃ l', l = m :: l' ∧ chainb nw (nw m) l' = true := by
  cases l with
  | nil => simp [chainb] at h
  | cons u l =>
    simp only [chainb, Bool.and_eq_true, decide_eq_true_eq, Option.some.injEq] at h
    exact ⟨l, by rw [h.1], h.1 ▸ h.2⟩

theorem not_parked_not_mem {n : Nat} {c : Config n} (h : Inv c) {t : Fin n}
    (ht : c.pc t ≠ PC.parked) : t ∉ c.waitq :=
  fun hm => ht (h.queued t hm).1

theorem not_parked_sem_zero {n : Nat} {c : Config n} (h : Inv c) {t : Fin n}
    (ht : c.pc t ≠ PC.parked) : c.sem t = 0 := by
  by_contra hs
  exact ht (h.semparked t (Nat.pos_of_ne_zero hs))

/-- A step that only rewrites the stepping thread's program counter (no
shared-memory mutation) preserves the invariant, provided the new counter
keeps the thread's holder status and respects the side conditions recorded
for `acq`/`enq`/`cs2` counters. -/
theorem inv_set_pc {n : Nat} {c : Config n} (h : Inv c) (t : Fin n) (q : PC n)
    (hold : holderB q = holderB (c.pc t))
    (hpt : c.pc t ≠ PC.parked)
    (hq1 : ∀ lv, q = PC.acq lv → lv.locked = false)
    (hq2 : ∀ lv, q = PC.enq lv → lv.locked = true)
    (hq3 : ∀ tmp, q = PC.cs2 tmp → tmp = c.counter) :
    Inv { c with pc := Function.update c.pc t q } := by
  have hmem : t ∉ c.waitq := not_parked_not_mem h hpt
  have hsem : c.sem t = 0 := not_parked_sem_zero h hpt
  have hiso : ∀ u, isHolder { c with pc := Function.update c.pc t q } u
      = isHolder c u := by
    intro u
    show holderB (Function.update c.pc t q u) = holderB (c.pc u)
    by_cases hu : u = t
    · rw [hu, Function.update_same, hold]
    · rw [Function.update_noteq hu]
  refine ⟨?_, ?_, h.chain, h.nodup, ?_, h.semle, ?_, h.cnt, ?_, h.rel,
    h.relLocked, ?_, ?_⟩
  · intro u v hu hv
    rw [hiso] at hu hv
    exact h.uniq u v hu hv
  · intro hl u
    rw [hiso]
    exact h.noHolder hl u
  · intro u hu
    have hq := h.queued u hu
    have hut : u ≠ t := fun he => hmem (he ▸ hu)
    show Function.update c.pc t q u = PC.parked ∧ c.sem u = 0
    rw [Function.update_noteq hut]
    exact hq
  · intro u hu
    have hu' : 0 < c.sem u := hu
    have hp := h.semparked u hu'
    have hut : u ≠ t := fun he => hpt (he ▸ hp)
    show Function.update c.pc t q u = PC.parked
    rw [Function.update_noteq hut]
    exact hp
  · intro u tmp hu
    have hu' : Function.update c.pc t q u = PC.cs2 tmp := hu
    by_cases hut : u = t
    · rw [hut, Function.update_same] at hu'
      exact hq3 tmp hu'
    · rw [Function.update_noteq hut] at hu'
      exact h.cs2tmp u tmp hu'
  · intro u lv hu
    have hu' : Function.update c.pc t q u = PC.acq lv := hu
    by_cases hut : u = t
    · rw [hut, Function.update_same] at hu'
      exact hq1 lv hu'
    · rw [Function.update_noteq hut] at hu'
      exact h.acqlv u lv hu'
  · intro u lv hu
    have hu' : Function.update c.pc t q u = PC.enq lv := hu
    by_cases hut : u = t
    · rw [hut, Function.update_same] at hu'
      exact hq2 lv hu'
    · rw [Function.update_noteq hut] at hu'
      exact h.enqlv u lv hu'

theorem inv_init (n : Nat) : Inv (initConfig n) := by
  refine ⟨?_, ?_, ?_, ?_, ?_, ?_, ?_, ?_, ?_, ?_, ?_, ?_, ?_⟩ <;>
    simp [initConfig, isHolder, holderB, chainb]

theorem update_eq_cases {α β : Type _} [DecidableEq α] (f : α → β) (t : α)
    (q : β) (u : α) (r : β) (h : Function.update f t q u = r) :
    (u = t ∧ q = r) ∨ (u ≠ t ∧ f u = r) := by
  by_cases hut : u = t
  · exact Or.inl ⟨hut, by rw [← h, hut, Function.update_same]⟩
  · exact Or.inr ⟨hut, by rw [← h, Function.update_noteq hut]⟩

/-- A successful acquisition CAS (`casp(&l->key, v, v|LOCKED)` with `v`
unlocked) preserves the invariant. -/
theorem inv_acq_success {n : Nat} {c : Config n} (h : Inv c) (t : Fin n)
    (lv : Word n) (hpc : c.pc t = PC.acq lv) (hk : c.key = lv) :
    Inv { c with key := ⟨true, lv.head⟩, inRelease := false,
                 pc := Function.update c.pc t PC.cs1 } := by
  have hlv : lv.locked = false := h.acqlv t lv hpc
  have hkl : c.key.locked = false := by rw [hk]; exact hlv
  have hpt : c.pc t ≠ PC.parked := by rw [hpc]; exact fun hq => nomatch hq
  have hsem0 : c.sem t = 0 := not_parked_sem_zero h hpt
  have hnoh : ∀ u, isHolder c u = false := h.noHolder hkl
  refine ⟨?_, ?_, ?_, h.nodup, ?_, h.semle, ?_, h.cnt, ?_, ?_, ?_, ?_, ?_⟩
  · intro u v hu hv
    have hu' : holderB (Function.update c.pc t PC.cs1 u) = true := hu
    have hv' : holderB (Function.update c.pc t PC.cs1 v) = true := hv
    by_cases hut : u = t
    · by_cases hvt : v = t
      · rw [hut, hvt]
      · rw [Function.update_noteq hvt] at hv'
        have := hnoh v
        rw [isHolder] at this
        rw [this] at hv'
        exact absurd hv' (by decide)
    · rw [Function.update_noteq hut] at hu'
      have := hnoh u
      rw [isHolder] at this
      rw [this] at hu'
      exact absurd hu' (by decide)
  · intro hl
    simp at hl
  · show chainb c.nextw lv.head c.waitq = true
    have hhd : c.key.head = lv.head := by rw [hk]
    rw [← hhd]
    exact h.chain
  · intro u hu
    have hu' : u ∈ c.waitq := hu
    have hut : u ≠ t := fun he => (not_parked_not_mem h hpt) (he ▸ hu')
    have hq := h.queued u hu'
    show Function.update c.pc t PC.cs1 u = PC.parked ∧ c.sem u = 0
    rw [Function.update_noteq hut]
    exact hq
  · intro u hu
    have hu' : 0 < c.sem u := hu
    have hp := h.semparked u hu'
    have hut : u ≠ t := fun he => hpt (he ▸ hp)
    show Function.update c.pc t PC.cs1 u = PC.parked
    rw [Function.update_noteq hut]
    exact hp
  · intro u tmp hu
    have hu' : Function.update c.pc t PC.cs1 u = PC.cs2 tmp := hu
    rcases update_eq_cases _ _ _ _ _ hu' with ⟨_, hq⟩ | ⟨_, hq⟩
    · exact nomatch hq
    · exact h.cs2tmp u tmp hq
  · intro hl
    simp at hl
  · intro hr
    simp at hr
  · intro u lv' hu
    have hu' : Function.update c.pc t PC.cs1 u = PC.acq lv' := hu
    rcases update_eq_cases _ _ _ _ _ hu' with ⟨_, hq⟩ | ⟨_, hq⟩
    · exact nomatch hq
    · exact h.acqlv u lv' hq
  · intro u lv' hu
    have hu' : Function.update c.pc t PC.cs1 u = PC.enq lv' := hu
    rcases update_eq_cases _ _ _ _ _ hu' with ⟨_, hq⟩ | ⟨_, hq⟩
    · exact nomatch hq
    · exact h.enqlv u lv' hq

/-- A successful enqueue CAS (`casp(&l->key, v, g->m|LOCKED)` after storing
`g->m->nextwaitm = v&~LOCKED`) preserves the invariant. -/
theorem inv_enq_success {n : Nat} {c : Config n} (h : Inv c) (t : Fin n)
    (lv : Word n) (hpc : c.pc t = PC.enq lv) (hk : c.key = lv) :
    Inv { c with key := ⟨true, some t⟩,
                 nextw := Function.update c.nextw t lv.head,
                 pc := Function.update c.pc t PC.parked,
                 waitq := t :: c.waitq } := by
  have hlv : lv.locked = true := h.enqlv t lv hpc
  have hkl : c.key.locked = true := by rw [hk]; exact hlv
  have hpt : c.pc t ≠ PC.parked := by rw [hpc]; exact fun hq => nomatch hq
  have hmem : t ∉ c.waitq := not_parked_not_mem h hpt
  have hsem0 : c.sem t = 0 := not_parked_sem_zero h hpt
  have hiso : ∀ u, holderB (Function.update c.pc t PC.parked u)
      = holderB (c.pc u) := by
    intro u
    by_cases hut : u = t
    · rw [hut, Function.update_same, hpc]
      rfl
    · rw [Function.update_noteq hut]
  refine ⟨?_, ?_, ?_, ?_, ?_, h.semle, ?_, h.cnt, ?_, ?_, ?_, ?_, ?_⟩
  · intro u v hu hv
    have hu' : holderB (Function.update c.pc t PC.parked u) = true := hu
    have hv' : holderB (Function.update c.pc t PC.parked v) = true := hv
    rw [hiso] at hu' hv'
    exact h.uniq u v hu' hv'
  · intro hl
    simp at hl
  · show chainb (Function.update c.nextw t lv.head) (some t) (t :: c.waitq) = true
    simp only [chainb, Function.update_same]
    rw [chainb_update_not_mem _ _ _ _ hmem]
    have hhd : c.key.head = lv.head := by rw [hk]
    rw [← hhd]
    simp [h.chain]
  · show (t :: c.waitq).Nodup
    rw [List.nodup_cons]
    exact ⟨hmem, h.nodup⟩
  · intro u hu
    have hu' : u ∈ t :: c.waitq := hu
    show Function.update c.pc t PC.parked u = PC.parked ∧ c.sem u = 0
    rcases List.mem_cons.mp hu' with he | hm
    · rw [he, Function.update_same]
      exact ⟨rfl, hsem0⟩
    · have hut : u ≠ t := fun he2 => hmem (he2 ▸ hm)
      rw [Function.update_noteq hut]
      exact h.queued u hm
  · intro u hu
    have hu' : 0 < c.sem u := hu
    have hp := h.semparked u hu'
    show Function.update c.pc t PC.parked u = PC.parked
    by_cases hut : u = t
    · rw [hut, Function.update_same]
    · rw [Function.update_noteq hut]
      exact hp
  · intro u tmp hu
    have hu' : Function.update c.pc t PC.parked u = PC.cs2 tmp := hu
    rcases update_eq_cases _ _ _ _ _ hu' with ⟨_, hq⟩ | ⟨_, hq⟩
    · exact nomatch hq
    · exact h.cs2tmp u tmp hq
  · intro hl
    simp at hl
  · intro hr
    have h1 := h.relLocked hr
    rw [hkl] at h1
    exact absurd h1 (by decide)
  · intro u lv' hu
    have hu' : Function.update c.pc t PC.parked u = PC.acq lv' := hu
    rcases update_eq_cases _ _ _ _ _ hu' with ⟨_, hq⟩ | ⟨_, hq⟩
    · exact nomatch hq
    · exact h.acqlv u lv' hq
  · intro u lv' hu
    have hu' : Function.update c.pc t PC.parked u = PC.enq lv' := hu
    rcases update_eq_cases _ _ _ _ _ hu' with ⟨_, hq⟩ | ⟨_, hq⟩
    · exact nomatch hq
    · exact h.enqlv u lv' hq

/-- The write half of the client's `counter++` preserves the invariant. -/
theorem inv_cs2 {n : Nat} {c : Config n} (h : Inv c) (t : Fin n) (tmp : Nat)
    (hpc : c.pc t = PC.cs2 tmp) :
    Inv { c with counter := tmp + 1, total := c.total + 1,
                 pc := Function.update c.pc t PC.unl } := by
  have htmp : tmp = c.counter := h.cs2tmp t tmp hpc
  have hpt : c.pc t ≠ PC.parked := by rw [hpc]; exact fun hq => nomatch hq
  have hiso : ∀ u, holderB (Function.update c.pc t PC.unl u)
      = holderB (c.pc u) := by
    intro u
    by_cases hut : u = t
    · rw [hut, Function.update_same, hpc]
      rfl
    · rw [Function.update_noteq hut]
  refine ⟨?_, ?_, h.chain, h.nodup, ?_, h.semle, ?_, ?_, ?_, h.rel,
    h.relLocked, ?_, ?_⟩
  · intro u v hu hv
    have hu' : holderB (Function.update c.pc t PC.unl u) = true := hu
    have hv' : holderB (Function.update c.pc t PC.unl v) = true := hv
    rw [hiso] at hu' hv'
    exact h.uniq u v hu' hv'
  · intro hl u
    exfalso
    have h1 := h.noHolder hl t
    simp [isHolder, hpc, holderB] at h1
  · intro u hu
    have hu' : u ∈ c.waitq := hu
    have hut : u ≠ t := fun he => (not_parked_not_mem h hpt) (he ▸ hu')
    show Function.update c.pc t PC.unl u = PC.parked ∧ c.sem u = 0
    rw [Function.update_noteq hut]
    exact h.queued u hu'
  · intro u hu
    have hu' : 0 < c.sem u := hu
    have hp := h.semparked u hu'
    have hut : u ≠ t := fun he => hpt (he ▸ hp)
    show Function.update c.pc t PC.unl u = PC.parked
    rw [Function.update_noteq hut]
    exact hp
  · show tmp + 1 = c.total + 1
    rw [htmp, h.cnt]
  · intro u tmp' hu
    have hu' : Function.update c.pc t PC.unl u = PC.cs2 tmp' := hu
    rcases update_eq_cases _ _ _ _ _ hu' with ⟨_, hq⟩ | ⟨hut, hq⟩
    · exact nomatch hq
    · exact absurd (h.uniq u t (by simp [isHolder, hq, holderB])
        (by simp [isHolder, hpc, holderB])) hut
  · intro u lv' hu
    have hu' : Function.update c.pc t PC.unl u = PC.acq lv' := hu
    rcases update_eq_cases _ _ _ _ _ hu' with ⟨_, hq⟩ | ⟨_, hq⟩
    · exact nomatch hq
    · exact h.acqlv u lv' hq
  · intro u lv' hu
    have hu' : Function.update c.pc t PC.unl u = PC.enq lv' := hu
    rcases update_eq_cases _ _ _ _ _ hu' with ⟨_, hq⟩ | ⟨_, hq⟩
    · exact nomatch hq
    · exact h.enqlv u lv' hq

/-- Returning from `semasleep(-1)` (consuming one semaphore count) preserves
the invariant. -/
theorem inv_parked_consume {n : Nat} {c : Config n} (h : Inv c) (t : Fin n)
    (hpc : c.pc t = PC.parked) (hs : ¬c.sem t = 0) :
    Inv { c with sem := Function.update c.sem t (c.sem t - 1),
                 pc := Function.update c.pc t PC.load } := by
  have hmem : t ∉ c.waitq := fun hm => hs (h.queued t hm).2
  have hiso : ∀ u, holderB (Function.update c.pc t PC.load u)
      = holderB (c.pc u) := by
    intro u
    by_cases hut : u = t
    · rw [hut, Function.update_same, hpc]
      rfl
    · rw [Function.update_noteq hut]
  refine ⟨?_, ?_, h.chain, h.nodup, ?_, ?_, ?_, h.cnt, ?_, h.rel,
    h.relLocked, ?_, ?_⟩
  · intro u v hu hv
    have hu' : holderB (Function.update c.pc t PC.load u) = true := hu
    have hv' : holderB (Function.update c.pc t PC.load v) = true := hv
    rw [hiso] at hu' hv'
    exact h.uniq u v hu' hv'
  · intro hl u
    show holderB (Function.update c.pc t PC.load u) = false
    rw [hiso]
    exact h.noHolder hl u
  · intro u hu
    have hu' : u ∈ c.waitq := hu
    have hut : u ≠ t := fun he => hmem (he ▸ hu')
    show Function.update c.pc t PC.load u = PC.parked ∧
      Function.update c.sem t (c.sem t - 1) u = 0
    rw [Function.update_noteq hut, Function.update_noteq hut]
    exact h.queued u hu'
  · intro u
    show Function.update c.sem t (c.sem t - 1) u ≤ 1
    by_cases hut : u = t
    · rw [hut, Function.update_same]
      exact le_trans (Nat.sub_le _ _) (h.semle t)
    · rw [Function.update_noteq hut]
      exact h.semle u
  · intro u hu
    have hu' : 0 < Function.update c.sem t (c.sem t - 1) u := hu
    show Function.update c.pc t PC.load u = PC.parked
    by_cases hut : u = t
    · exfalso
      rw [hut, Function.update_same] at hu'
      have hs1 : c.sem t = 1 :=
        Nat.le_antisymm (h.semle t) (Nat.pos_of_ne_zero hs)
      rw [hs1] at hu'
      exact absurd hu' (by decide)
    · rw [Function.update_noteq hut] at hu'
      rw [Function.update_noteq hut]
      exact h.semparked u hu'
  · intro u tmp hu
    have hu' : Function.update c.pc t PC.load u = PC.cs2 tmp := hu
    rcases update_eq_cases _ _ _ _ _ hu' with ⟨_, hq⟩ | ⟨_, hq⟩
    · exact nomatch hq
    · exact h.cs2tmp u tmp hq
  · intro u lv' hu
    have hu' : Function.update c.pc t PC.load u = PC.acq lv' := hu
    rcases update_eq_cases _ _ _ _ _ hu' with ⟨_, hq⟩ | ⟨_, hq⟩
    · exact nomatch hq
    · exact h.acqlv u lv' hq
  · intro u lv' hu
    have hu' : Function.update c.pc t PC.load u = PC.enq lv' := hu
    rcases update_eq_cases _ _ _ _ _ hu' with ⟨_, hq⟩ | ⟨_, hq⟩
    · exact nomatch hq
    · exact h.enqlv u lv' hq

/-- A successful release CAS with an empty wait list
(`casp(&l->key, LOCKED, nil)`) preserves the invariant. -/
theorem inv_uncas_success {n : Nat} {c : Config n} (h : Inv c) (t : Fin n)
    (hpc : c.pc t = PC.uncas) (hk : c.key = (⟨true, none⟩ : Word n)) :
    Inv { c with key := ⟨false, none⟩,
                 pc := Function.update c.pc t (PC.acq ⟨false, none⟩) } := by
  have hpt : c.pc t ≠ PC.parked := by rw [hpc]; exact fun hq => nomatch hq
  have hwq : c.waitq = [] := by
    apply chainb_none_nil c.nextw
    have hc := h.chain
    rw [hk] at hc
    exact hc
  have hht : isHolder c t = true := by simp [isHolder, hpc, holderB]
  refine ⟨?_, ?_, ?_, h.nodup, ?_, h.semle, ?_, h.cnt, ?_, ?_, ?_, ?_, ?_⟩
  · intro u v hu hv
    have hu' : holderB (Function.update c.pc t (PC.acq ⟨false, none⟩) u) = true := hu
    have hv' : holderB (Function.update c.pc t (PC.acq ⟨false, none⟩) v) = true := hv
    by_cases hut : u = t
    · rw [hut, Function.update_same] at hu'
      simp [holderB] at hu'
    · by_cases hvt : v = t
      · rw [hvt, Function.update_same] at hv'
        simp [holderB] at hv'
      · rw [Function.update_noteq hut] at hu'
        rw [Function.update_noteq hvt] at hv'
        exact h.uniq u v hu' hv'
  · intro _ u
    show holderB (Function.update c.pc t (PC.acq ⟨false, none⟩) u) = false
    by_cases hut : u = t
    · rw [hut, Function.update_same]
      rfl
    · rw [Function.update_noteq hut]
      cases hcb : holderB (c.pc u) with
      | false => rfl
      | true =>
        exact absurd (h.uniq u t (by simp only [isHolder]; exact hcb) hht) hut
  · show chainb c.nextw none c.waitq = true
    rw [hwq]
    simp [chainb]
  · intro u hu
    have hu' : u ∈ c.waitq := hu
    rw [hwq] at hu'
    exact absurd hu' (List.not_mem_nil u)
  · intro u hu
    have hu' : 0 < c.sem u := hu
    have hp := h.semparked u hu'
    have hut : u ≠ t := fun he => hpt (he ▸ hp)
    show Function.update c.pc t (PC.acq ⟨false, none⟩) u = PC.parked
    rw [Function.update_noteq hut]
    exact hp
  · intro u tmp hu
    have hu' : Function.update c.pc t (PC.acq ⟨false, none⟩) u = PC.cs2 tmp := hu
    rcases update_eq_cases _ _ _ _ _ hu' with ⟨_, hq⟩ | ⟨_, hq⟩
    · exact nomatch hq
    · exact h.cs2tmp u tmp hq
  · intro _
    exact Or.inl rfl
  · intro _
    rfl
  · intro u lv' hu
    have hu' : Function.update c.pc t (PC.acq ⟨false, none⟩) u = PC.acq lv' := hu
    rcases update_eq_cases _ _ _ _ _ hu' with ⟨_, hq⟩ | ⟨_, hq⟩
    · injection hq with h1
      rw [← h1]
    · exact h.acqlv u lv' hq
  · intro u lv' hu
    have hu' : Function.update c.pc t (PC.acq ⟨false, none⟩) u = PC.enq lv' := hu
    rcases update_eq_cases _ _ _ _ _ hu' with ⟨_, hq⟩ | ⟨_, hq⟩
    · exact nomatch hq
    · exact h.enqlv u lv' hq

/-- A successful pop CAS (`casp(&l->key, v, mp->nextwaitm)` followed by
`semawakeup(mp)`) preserves the invariant. -/
theorem inv_popcas_success {n : Nat} {c : Config n} (h : Inv c) (t : Fin n)
    (lv : Word n) (mp : Fin n) (hpc : c.pc t = PC.popcas lv)
    (hhd : lv.head = some mp) (hk : c.key = lv) :
    Inv { c with key := ⟨false, c.nextw mp⟩,
                 sem := Function.update c.sem mp (c.sem mp + 1),
                 inRelease := true,
                 waitq := c.waitq.tail,
                 pc := Function.update c.pc t (PC.acq ⟨false, none⟩) } := by
  have hpt : c.pc t ≠ PC.parked := by rw [hpc]; exact fun hq => nomatch hq
  have hch : chainb c.nextw (some mp) c.waitq = true := by
    have hc := h.chain
    rw [hk, hhd] at hc
    exact hc
  rcases chainb_some_cons _ _ _ hch with ⟨rest, hrest, hch'⟩
  have hmp : mp ∈ c.waitq := by
    rw [hrest]
    exact List.mem_cons_self mp rest
  have hqm := h.queued mp hmp
  have hmt : mp ≠ t := by
    intro he
    rw [he, hpc] at hqm
    exact nomatch hqm.1
  have hmpnr : mp ∉ rest := by
    have hn := h.nodup
    rw [hrest, List.nodup_cons] at hn
    exact hn.1
  have htail : c.waitq.tail = rest := by
    rw [hrest]
    rfl
  have hht : isHolder c t = true := by simp [isHolder, hpc, holderB]
  refine ⟨?_, ?_, ?_, ?_, ?_, ?_, ?_, h.cnt, ?_, ?_, ?_, ?_, ?_⟩
  · intro u v hu hv
    have hu' : holderB (Function.update c.pc t (PC.acq ⟨false, none⟩) u) = true := hu
    have hv' : holderB (Function.update c.pc t (PC.acq ⟨false, none⟩) v) = true := hv
    by_cases hut : u = t
    · rw [hut, Function.update_same] at hu'
      simp [holderB] at hu'
    · by_cases hvt : v = t
      · rw [hvt, Function.update_same] at hv'
        simp [holderB] at hv'
      · rw [Function.update_noteq hut] at hu'
        rw [Function.update_noteq hvt] at hv'
        exact h.uniq u v hu' hv'
  · intro _ u
    show holderB (Function.update c.pc t (PC.acq ⟨false, none⟩) u) = false
    by_cases hut : u = t
    · rw [hut, Function.update_same]
      rfl
    · rw [Function.update_noteq hut]
      cases hcb : holderB (c.pc u) with
      | false => rfl
      | true =>
        exact absurd (h.uniq u t (by simp only [isHolder]; exact hcb) hht) hut
  · show chainb c.nextw (c.nextw mp) c.waitq.tail = true
    rw [htail]
    exact hch'
  · show c.waitq.tail.Nodup
    rw [htail]
    have hn := h.nodup
    rw [hrest, List.nodup_cons] at hn
    exact hn.2
  · intro u hu
    have hu' : u ∈ c.waitq.tail := hu
    rw [htail] at hu'
    have hum : u ∈ c.waitq := by
      rw [hrest]
      exact List.mem_cons_of_mem mp hu'
    have hq := h.queued u hum
    have hut : u ≠ t := fun he => hpt (he ▸ hq.1)
    have hump : u ≠ mp := fun he => hmpnr (he ▸ hu')
    show Function.update c.pc t (PC.acq ⟨false, none⟩) u = PC.parked ∧
      Function.update c.sem mp (c.sem mp + 1) u = 0
    rw [Function.update_noteq hut, Function.update_noteq hump]
    exact hq
  · intro u
    show Function.update c.sem mp (c.sem mp + 1) u ≤ 1
    by_cases hump : u = mp
    · rw [hump, Function.update_same, hqm.2]
    · rw [Function.update_noteq hump]
      exact h.semle u
  · intro u hu
    show Function.update c.pc t (PC.acq ⟨false, none⟩) u = PC.parked
    by_cases hump : u = mp
    · rw [hump, Function.update_noteq hmt]
      exact hqm.1
    · have hu' : 0 < Function.update c.sem mp (c.sem mp + 1) u := hu
      rw [Function.update_noteq hump] at hu'
      have hp := h.semparked u hu'
      have hut : u ≠ t := fun he => hpt (he ▸ hp)
      rw [Function.update_noteq hut]
      exact hp
  · intro u tmp hu
    have hu' : Function.update c.pc t (PC.acq ⟨false, none⟩) u = PC.cs2 tmp := hu
    rcases update_eq_cases _ _ _ _ _ hu' with ⟨_, hq⟩ | ⟨_, hq⟩
    · exact nomatch hq
    · exact h.cs2tmp u tmp hq
  · intro _
    exact Or.inr rfl
  · intro _
    rfl
  · intro u lv' hu
    have hu' : Function.update c.pc t (PC.acq ⟨false, none⟩) u = PC.acq lv' := hu
    rcases update_eq_cases _ _ _ _ _ hu' with ⟨_, hq⟩ | ⟨_, hq⟩
    · injection hq with h1
      rw [← h1]
    · exact h.acqlv u lv' hq
  · intro u lv' hu
    have hu' : Function.update c.pc t (PC.acq ⟨false, none⟩) u = PC.enq lv' := hu
    rcases update_eq_cases _ _ _ _ _ hu' with ⟨_, hq⟩ | ⟨_, hq⟩
    · exact nomatch hq
    · exact h.enqlv u lv' hq

/-- The invariant is preserved by every step of every thread. -/
theorem inv_step {n : Nat} {c : Config n} (h : Inv c) (t : Fin n) :
    Inv (stepThread c t) := by
  show Inv (stepAt c t (c.pc t))
  cases hpc : c.pc t with
  | acq lv =>
    by_cases hk : c.key = lv
    · simp only [stepAt, if_pos hk]
      exact inv_acq_success h t lv hpc hk
    · simp only [stepAt, if_neg hk]
      exact inv_set_pc h t PC.load (by rw [hpc]; rfl)
        (by rw [hpc]; exact fun hq => nomatch hq)
        (fun _ hq => nomatch hq) (fun _ hq => nomatch hq)
        (fun _ hq => nomatch hq)
  | load =>
    by_cases hb : c.key.locked = true
    · simp only [stepAt, if_pos hb]
      exact inv_set_pc h t (PC.enq c.key) (by rw [hpc]; rfl)
        (by rw [hpc]; exact fun hq => nomatch hq)
        (fun _ hq => nomatch hq)
        (fun lv' hq => by injection hq with h1; rw [← h1]; exact hb)
        (fun _ hq => nomatch hq)
    · have hb' : c.key.locked = false := by
        cases hcb : c.key.locked
        · rfl
        · exact absurd hcb hb
      simp only [stepAt, if_neg hb]
      exact inv_set_pc h t (PC.acq c.key) (by rw [hpc]; rfl)
        (by rw [hpc]; exact fun hq => nomatch hq)
        (fun lv' hq => by injection hq with h1; rw [← h1]; exact hb')
        (fun _ hq => nomatch hq) (fun _ hq => nomatch hq)
  | enq lv =>
    by_cases hk : c.key = lv
    · have hlv : lv.locked = true := h.enqlv t lv hpc
      simp only [stepAt, if_pos hk, if_pos hlv]
      exact inv_enq_success h t lv hpc hk
    · simp only [stepAt, if_neg hk]
      exact inv_set_pc h t PC.load (by rw [hpc]; rfl)
        (by rw [hpc]; exact fun hq => nomatch hq)
        (fun _ hq => nomatch hq) (fun _ hq => nomatch hq)
        (fun _ hq => nomatch hq)
  | parked =>
    by_cases hs : c.sem t = 0
    · simpa only [stepAt, if_pos hs] using h
    · simp only [stepAt, if_neg hs]
      exact inv_parked_consume h t hpc hs
  | cs1 =>
    simp only [stepAt]
    exact inv_set_pc h t (PC.cs2 c.counter) (by rw [hpc]; rfl)
      (by rw [hpc]; exact fun hq => nomatch hq)
      (fun _ hq => nomatch hq) (fun _ hq => nomatch hq)
      (fun tmp hq => by injection hq with h1; exact h1.symm)
  | cs2 tmp =>
    simp only [stepAt]
    exact inv_cs2 h t tmp hpc
  | unl =>
    by_cases hk : c.key = (⟨true, none⟩ : Word n)
    · simp only [stepAt, if_pos hk]
      exact inv_set_pc h t PC.uncas (by rw [hpc]; rfl)
        (by rw [hpc]; exact fun hq => nomatch hq)
        (fun _ hq => nomatch hq) (fun _ hq => nomatch hq)
        (fun _ hq => nomatch hq)
    · simp only [stepAt, if_neg hk]
      exact inv_set_pc h t (PC.popcas c.key) (by rw [hpc]; rfl)
        (by rw [hpc]; exact fun hq => nomatch hq)
        (fun _ hq => nomatch hq) (fun _ hq => nomatch hq)
        (fun _ hq => nomatch hq)
  | uncas =>
    by_cases hk : c.key = (⟨true, none⟩ : Word n)
    · simp only [stepAt, if_pos hk]
      exact inv_uncas_success h t hpc hk
    · simp only [stepAt, if_neg hk]
      exact inv_set_pc h t PC.unl (by rw [hpc]; rfl)
        (by rw [hpc]; exact fun hq => nomatch hq)
        (fun _ hq => nomatch hq) (fun _ hq => nomatch hq)
        (fun _ hq => nomatch hq)
  | popcas lv =>
    cases hhd : lv.head with
    | none => simpa only [stepAt, hhd] using h
    | some mp =>
      by_cases hk : c.key = lv
      · simp only [stepAt, hhd, if_pos hk]
        exact inv_popcas_success h t lv mp hpc hhd hk
      · simp only [stepAt, hhd, if_neg hk]
        exact inv_set_pc h t PC.unl (by rw [hpc]; rfl)
          (by rw [hpc]; exact fun hq => nomatch hq)
          (fun _ hq => nomatch hq) (fun _ hq => nomatch hq)
          (fun _ hq => nomatch hq)

/-- Every reachable configuration satisfies the invariant. -/
theorem inv_reachable {n : Nat} {c : Config n} (h : Reachable n c) : Inv c := by
  induction h with
  | init => exact inv_init n
  | step t _ ih => exact inv_step ih t

theorem cancelLoop_woken_one (self : Nat) (oracle : List (Bool × Bool)) :
    cancelLoop self ⟨.woken, 1⟩ false oracle
      = (TWOut.satisfied, ⟨NoteKey.woken, 0⟩) := by
  cases oracle with
  | nil => rfl
  | cons p rest =>
    rcases p with ⟨f1, f2⟩
    simp [cancelLoop, fireIf]

/-- Entered still registered and with no count granted yet, the cancellation
path resolves to exactly one of the two legal outcomes, whatever the racing
signal does. -/
theorem cancelLoop_reg_result (self : Nat) (pending : Bool)
    (oracle : List (Bool × Bool)) :
    cancelLoop self ⟨.reg self, 0⟩ pending oracle
        = (TWOut.timedOut, ⟨NoteKey.empty, 0⟩) ∨
    cancelLoop self ⟨.reg self, 0⟩ pending oracle
        = (TWOut.satisfied, ⟨NoteKey.woken, 0⟩) := by
  cases oracle with
  | nil => exact Or.inl (by simp [cancelLoop])
  | cons p rest =>
    rcases p with ⟨f1, f2⟩
    cases hp1 : pending && f1 with
    | true =>
      right
      simp [cancelLoop, fireIf, hp1, wakeupSt]
    | false =>
      cases hp2 : pending && f2 with
      | true =>
        right
        simp [cancelLoop, fireIf, hp1, hp2, wakeupSt, cancelLoop_woken_one]
      | false =>
        left
        simp [cancelLoop, fireIf, hp1, hp2]

theorem tsleepLoop_no_acq (deadline : Int) (iters : List (Bool × Int))
    (hnosig : ∀ p ∈ iters, p.1 = false) (b : Bool) (now : Int)
    (h : tsleepLoop deadline iters = some (b, now)) :
    b = false ∧ deadline ≤ now := by
  induction iters with
  | nil => simp [tsleepLoop] at h
  | cons p rest ih =>
    rcases p with ⟨acq, nw⟩
    have hacq : acq = false := hnosig (acq, nw) (List.mem_cons_self _ _)
    rw [hacq] at h
    simp only [tsleepLoop, Bool.false_eq_true, if_false] at h
    by_cases hle : deadline - nw ≤ 0
    · rw [if_pos hle] at h
      injection h with h1
      injection h1 with h2 h3
      rw [← h3]
      exact ⟨h2.symm, sub_nonpos.mp hle⟩
    · rw [if_neg hle] at h
      exact ih (fun q hq => hnosig q (List.mem_cons_of_mem _ hq)) h

/-- C1: for every concurrent execution in which `n >= 2` worker threads each
repeatedly `runtime·lock` the same mutex, increment a shared counter, and
`runtime·unlock` it, at most one thread holds the lock at any time, and the
counter always equals the total number of increments performed — no update
is ever lost. -/
theorem C1_mutual_exclusion_no_lost_updates (n : Nat) (hn : 2 ≤ n)
    (c : Config n) (hc : Reachable n c) :
    (∀ t u, isHolder c t = true → isHolder c u = true → t = u) ∧
    c.counter = c.total :=
  ⟨(inv_reachable hc).uniq, (inv_reachable hc).cnt⟩

theorem C1_witness :
    (∀ t u, isHolder (initConfig 2) t = true →
      isHolder (initConfig 2) u = true → t = u) ∧
    (initConfig 2).counter = (initConfig 2).total :=
  C1_mutual_exclusion_no_lost_updates 2 (by decide) (initConfig 2)
    Reachable.init

/-- C2: when the deadline of a `notetsleep` passes while the caller is still
registered, the cancellation path resolves to exactly one of "timed out" and
"satisfied" for every interleaving with the racing signal: "timed out"
exactly when the unregistering CAS back to EMPTY succeeded, "satisfied"
exactly when WOKEN was observed and the concurrently granted semaphore count
was consumed by one further `semasleep(-1)` (which finds the count, so the
fatal aborts are unreachable); either way the registration state and the
semaphore count are left consistent for the next session. -/
theorem C2_cancellation_exactly_one (self : Nat) (pending : Bool)
    (oracle : List (Bool × Bool)) :
    ((cancelLoop self ⟨.reg self, 0⟩ pending oracle).1 = TWOut.timedOut ∨
      (cancelLoop self ⟨.reg self, 0⟩ pending oracle).1 = TWOut.satisfied) ∧
    ((cancelLoop self ⟨.reg self, 0⟩ pending oracle).1 = TWOut.timedOut ↔
      (cancelLoop self ⟨.reg self, 0⟩ pending oracle).2
        = ⟨NoteKey.empty, 0⟩) ∧
    ((cancelLoop self ⟨.reg self, 0⟩ pending oracle).1 = TWOut.satisfied ↔
      (cancelLoop self ⟨.reg self, 0⟩ pending oracle).2
        = ⟨NoteKey.woken, 0⟩) := by
  rcases cancelLoop_reg_result self pending oracle with h | h <;>
    rw [h] <;> simp

theorem C2_witness :
    ((cancelLoop 0 ⟨.reg 0, 0⟩ true [(false, true)]).1 = TWOut.timedOut ∨
      (cancelLoop 0 ⟨.reg 0, 0⟩ true [(false, true)]).1 = TWOut.satisfied) ∧
    ((cancelLoop 0 ⟨.reg 0, 0⟩ true [(false, true)]).1 = TWOut.timedOut ↔
      (cancelLoop 0 ⟨.reg 0, 0⟩ true [(false, true)]).2
        = ⟨NoteKey.empty, 0⟩) ∧
    ((cancelLoop 0 ⟨.reg 0, 0⟩ true [(false, true)]).1 = TWOut.satisfied ↔
      (cancelLoop 0 ⟨.reg 0, 0⟩ true [(false, true)]).2
        = ⟨NoteKey.woken, 0⟩) :=
  C2_cancellation_exactly_one 0 true [(false, true)]

/-- C3: `runtime·notewakeup` installs WOKEN unconditionally (exactly once
per call), and what else it does is a three-way case analysis on the value
replaced: EMPTY wakes nobody, a registered M is woken via `semawakeup` of
exactly that M, and WOKEN is a fatal double wakeup. -/
theorem C3_notewakeup_three_way (k : NoteKey) :
    (notewakeup k).1 = NoteKey.woken ∧
    ((notewakeup k).2 = WakeAct.nothing ↔ k = NoteKey.empty) ∧
    (∀ i, (notewakeup k).2 = WakeAct.wake i ↔ k = NoteKey.reg i) ∧
    ((notewakeup k).2 = WakeAct.doubleWakeup ↔ k = NoteKey.woken) := by
  cases k <;> simp [notewakeup]

theorem C3_witness :
    (notewakeup (NoteKey.reg 7)).1 = NoteKey.woken ∧
    ((notewakeup (NoteKey.reg 7)).2 = WakeAct.nothing ↔
      NoteKey.reg 7 = NoteKey.empty) ∧
    (∀ i, (notewakeup (NoteKey.reg 7)).2 = WakeAct.wake i ↔
      NoteKey.reg 7 = NoteKey.reg i) ∧
    ((notewakeup (NoteKey.reg 7)).2 = WakeAct.doubleWakeup ↔
      NoteKey.reg 7 = NoteKey.woken) :=
  C3_notewakeup_three_way (NoteKey.reg 7)

/-- C4: in every reachable state of the mutex, if the LOCKED bit is clear
then the pointer bits are null, except while a release race is being
resolved — the ghost flag `inRelease` is set exactly from an unlock's pop of
a waiter until the next successful acquisition; moreover the exception can
only apply while the word is unlocked. -/
theorem C4_unlocked_empty_list {n : Nat} (c : Config n)
    (hc : Reachable n c) :
    (c.key.locked = false → c.key.head = none ∨ c.inRelease = true) ∧
    (c.inRelease = true → c.key.locked = false) :=
  ⟨(inv_reachable hc).rel, (inv_reachable hc).relLocked⟩

theorem C4_witness :
    ((initConfig 2).key.locked = false →
      (initConfig 2).key.head = none ∨ (initConfig 2).inRelease = true) ∧
    ((initConfig 2).inRelease = true →
      (initConfig 2).key.locked = false) :=
  C4_unlocked_empty_list (initConfig 2) Reachable.init

/-- C5: the wait queue is a LIFO stack.  With holder 0 and waiters 1, 2, 3
(A, B, C) enqueued in that order while the lock is held, the wait list reads
C, B, A (most recent first); the three successive releases wake C first
(only C's semaphore is granted), then B, then A — most recently blocked
first, not longest-waiting first. -/
theorem C5_lifo_wakeup_order :
    lifoC1.waitq = [3, 2, 1] ∧
    (lifoC2.sem 3, lifoC2.sem 2, lifoC2.sem 1) = (1, 0, 0) ∧
    (lifoC3.sem 3, lifoC3.sem 2, lifoC3.sem 1) = (1, 1, 0) ∧
    (lifoC4.sem 3, lifoC4.sem 2, lifoC4.sem 1) = (1, 1, 1) ∧
    lifoC4.waitq = [] := by
  decide

/-- C6: the registration step shared by `runtime·notesleep` and `notetsleep`
CASes `n->key` from EMPTY to the caller's M — it parks exactly when the key
was EMPTY (and is then registered), returns immediately exactly when the
CAS failed against WOKEN, and aborts (`waitm out of sync`) exactly when the
key held any other value. -/
theorem C6_registration_cases (self : Nat) (k : NoteKey) :
    ((notesleepReg self k).2 = SleepAct.park ↔ k = NoteKey.empty) ∧
    (k = NoteKey.empty → (notesleepReg self k).1 = NoteKey.reg self) ∧
    ((notesleepReg self k).2 = SleepAct.immediate ↔ k = NoteKey.woken) ∧
    ((notesleepReg self k).2 = SleepAct.outOfSync ↔
      ∃ i, k = NoteKey.reg i) := by
  cases k <;> simp [notesleepReg]

theorem C6_witness :
    ((notesleepReg 0 NoteKey.empty).2 = SleepAct.park ↔
      NoteKey.empty = NoteKey.empty) ∧
    (NoteKey.empty = NoteKey.empty →
      (notesleepReg 0 NoteKey.empty).1 = NoteKey.reg 0) ∧
    ((notesleepReg 0 NoteKey.empty).2 = SleepAct.immediate ↔
      NoteKey.empty = NoteKey.woken) ∧
    ((notesleepReg 0 NoteKey.empty).2 = SleepAct.outOfSync ↔
      ∃ i, NoteKey.empty = NoteKey.reg i) :=
  C6_registration_cases 0 NoteKey.empty

/-- C7: a `notetsleep(n, ns)` with `ns >= 0` during which no signal is ever
delivered returns "timed out", and only after observing a clock reading at
or past the absolute deadline `t0 + ns` — never sooner; afterwards the note
is EMPTY again with no stray semaphore count, reusable by the next
clear/signal/wait session. -/
theorem C7_timeout_lower_bound (self : Nat) (ns t0 : Int)
    (iters : List (Bool × Int)) (hns : 0 ≤ ns)
    (hnosig : ∀ p ∈ iters, p.1 = false) (out : TWOut) (s : NoteSt)
    (tEnd : Int)
    (hrun : notetsleepNoSignal self ns t0 iters = some (out, s, tEnd)) :
    out = TWOut.timedOut ∧ s = ⟨NoteKey.empty, 0⟩ ∧ t0 + ns ≤ tEnd := by
  unfold notetsleepNoSignal at hrun
  cases htl : tsleepLoop (t0 + ns) iters with
  | none => rw [htl] at hrun; exact nomatch hrun
  | some r =>
    rcases r with ⟨b, now⟩
    have hba := tsleepLoop_no_acq (t0 + ns) iters hnosig b now htl
    have hcl : cancelLoop self ⟨.reg self, 0⟩ false []
        = (TWOut.timedOut, ⟨NoteKey.empty, 0⟩) := by
      simp [cancelLoop]
    rw [htl, hba.1] at hrun
    simp only [hcl, Option.some.injEq, Prod.mk.injEq] at hrun
    refine ⟨hrun.1.symm, hrun.2.1.symm, ?_⟩
    rw [← hrun.2.2]
    exact hba.2

theorem C7_witness :
    TWOut.timedOut = TWOut.timedOut ∧
    (⟨NoteKey.empty, 0⟩ : NoteSt) = ⟨NoteKey.empty, 0⟩ ∧
    (0 : Int) + 5 ≤ 7 :=
  C7_timeout_lower_bound 0 5 0 [(false, 3), (false, 7)] (by decide)
    (by decide) TWOut.timedOut ⟨NoteKey.empty, 0⟩ 7 (by decide)

/-- C8: `runtime·unlock` decrements `m->locks` and takes the fatal path
exactly when the decremented value is negative (so an unlock without a
prior matching lock, from count 0, aborts), and stores `StackPreempt` into
`g->stackguard0` when the count returns exactly to 0 with `g->preempt`
set. -/
theorem C8_unlock_lock_count (locks : Int) (preempt : Bool) (sg0 : Int) :
    (unlockEpilogue locks preempt sg0).1 = locks - 1 ∧
    ((unlockEpilogue locks preempt sg0).2.2 = true ↔ locks - 1 < 0) ∧
    (locks - 1 = 0 → preempt = true →
      (unlockEpilogue locks preempt sg0).2.1 = StackPreempt) ∧
    (unlockEpilogue 0 preempt sg0).2.2 = true := by
  refine ⟨?_, ?_, ?_, ?_⟩
  · by_cases h1 : locks - 1 < 0
    · simp [unlockEpilogue, h1]
    · by_cases h2 : locks - 1 = 0 ∧ preempt = true
      · simp [unlockEpilogue, h1, h2]
      · simp [unlockEpilogue, h1, h2]
  · by_cases h1 : locks - 1 < 0
    · simp [unlockEpilogue, h1]
    · by_cases h2 : locks - 1 = 0 ∧ preempt = true
      · simp [unlockEpilogue, h1, h2]
      · simp [unlockEpilogue, h1, h2]
  · intro h0 hp
    have h1 : ¬locks - 1 < 0 := by rw [h0]; decide
    simp [unlockEpilogue, h1, h0, hp]
  · norm_num [unlockEpilogue]

theorem C8_witness :
    (unlockEpilogue 1 true 7).1 = 1 - 1 ∧
    ((unlockEpilogue 1 true 7).2.2 = true ↔ (1 : Int) - 1 < 0) ∧
    ((1 : Int) - 1 = 0 → true = true →
      (unlockEpilogue 1 true 7).2.1 = StackPreempt) ∧
    (unlockEpilogue 0 true 7).2.2 = true :=
  C8_unlock_lock_count 1 true 7

/-- C9: after the fast path fails, with `ncpu > 1` the thread performs
`ACTIVE_SPIN = 4` rounds of `procyield(ACTIVE_SPIN_CNT = 30)` and then
`PASSIVE_SPIN = 1` `osyield` before enqueuing itself (and parking) while
the lock stays held; with `ncpu <= 1` the active budget is zero — one
`osyield`, then the enqueue; and the spin counter is zeroed exactly at a
failed grab CAS and after a park (resuming at 1 by the `for` increment),
while a yield merely increments it. -/
theorem C9_spin_policy (ncpu : Nat) (hcpu : 1 < ncpu) :
    spinFor ncpu = 4 ∧ spinFor 1 = 0 ∧
    lockRun (spinFor ncpu) 20 LPC.top 0 (List.replicate 7 true) =
      [LAct.procyield 30, LAct.procyield 30, LAct.procyield 30,
       LAct.procyield 30, LAct.osyield, LAct.enqueue, LAct.park] ∧
    lockRun (spinFor 1) 20 LPC.top 0 (List.replicate 3 true) =
      [LAct.osyield, LAct.enqueue, LAct.park] ∧
    (∀ fuel i o, lockRun (spinFor ncpu) (fuel + 1) LPC.acq i (false :: o) =
      lockRun (spinFor ncpu) fuel LPC.sel 0 o) ∧
    (∀ fuel i o, lockRun (spinFor ncpu) (fuel + 1) LPC.park i o =
      LAct.park :: lockRun (spinFor ncpu) fuel LPC.top 1 o) ∧
    (∀ fuel i o, i < spinFor ncpu →
      lockRun (spinFor ncpu) (fuel + 1) LPC.sel i o =
        LAct.procyield 30 :: lockRun (spinFor ncpu) fuel LPC.top (i + 1) o) := by
  have hs : spinFor ncpu = 4 := by simp [spinFor, hcpu, ACTIVE_SPIN]
  rw [hs]
  refine ⟨rfl, by decide, by decide, by decide, ?_, ?_, ?_⟩
  · intro fuel i o
    simp [lockRun]
  · intro fuel i o
    simp [lockRun]
  · intro fuel i o hi
    simp [lockRun, hi, ACTIVE_SPIN_CNT]

theorem C9_witness :
    spinFor 2 = 4 ∧ spinFor 1 = 0 ∧
    lockRun (spinFor 2) 20 LPC.top 0 (List.replicate 7 true) =
      [LAct.procyield 30, LAct.procyield 30, LAct.procyield 30,
       LAct.procyield 30, LAct.osyield, LAct.enqueue, LAct.park] ∧
    lockRun (spinFor 1) 20 LPC.top 0 (List.replicate 3 true) =
      [LAct.osyield, LAct.enqueue, LAct.park] ∧
    (∀ fuel i o, lockRun (spinFor 2) (fuel + 1) LPC.acq i (false :: o) =
      lockRun (spinFor 2) fuel LPC.sel 0 o) ∧
    (∀ fuel i o, lockRun (spinFor 2) (fuel + 1) LPC.park i o =
      LAct.park :: lockRun (spinFor 2) fuel LPC.top 1 o) ∧
    (∀ fuel i o, i < spinFor 2 →
      lockRun (spinFor 2) (fuel + 1) LPC.sel i o =
        LAct.procyield 30 :: lockRun (spinFor 2) fuel LPC.top (i + 1) o) :=
  C9_spin_policy 2 (by decide)

/-- C10: no enqueued waiter is ever lost.  In every reachable state the
word's pointer bits together with the `nextwaitm` links spell out exactly
the ghost list of currently enqueued M's; an acquisition CAS (successful or
not) changes neither the pointer bits nor that list; and a step of any
thread either keeps an enqueued M on the list or grants it one semaphore
count — it is removed only by the unlock that wakes it. -/
theorem C10_no_waiter_lost {n : Nat} (c : Config n) (hc : Reachable n c) :
    chainb c.nextw c.key.head c.waitq = true ∧
    (∀ t lv, c.pc t = PC.acq lv →
      (stepThread c t).waitq = c.waitq ∧
      (stepThread c t).key.head = c.key.head) ∧
    (∀ t m, m ∈ c.waitq →
      m ∈ (stepThread c t).waitq ∨
      (stepThread c t).sem m = c.sem m + 1) := by
  have h := inv_reachable hc
  refine ⟨h.chain, ?_, ?_⟩
  · intro t lv hpc
    show (stepAt c t (c.pc t)).waitq = c.waitq ∧
      (stepAt c t (c.pc t)).key.head = c.key.head
    rw [hpc]
    by_cases hk : c.key = lv
    · constructor
      · simp only [stepAt, if_pos hk]
      · simp only [stepAt, if_pos hk]
        rw [hk]
    · constructor
      · simp only [stepAt, if_neg hk]
      · simp only [stepAt, if_neg hk]
  · intro t m hm
    show m ∈ (stepAt c t (c.pc t)).waitq ∨
      (stepAt c t (c.pc t)).sem m = c.sem m + 1
    cases hpc : c.pc t with
    | acq lv =>
      by_cases hk : c.key = lv
      · simp only [stepAt, if_pos hk]; exact Or.inl hm
      · simp only [stepAt, if_neg hk]; exact Or.inl hm
    | load =>
      by_cases hb : c.key.locked = true
      · simp only [stepAt, if_pos hb]; exact Or.inl hm
      · simp only [stepAt, if_neg hb]; exact Or.inl hm
    | enq lv =>
      by_cases hk : c.key = lv
      · simp only [stepAt, if_pos hk]
        exact Or.inl (List.mem_cons_of_mem t hm)
      · simp only [stepAt, if_neg hk]; exact Or.inl hm
    | parked =>
      by_cases hs : c.sem t = 0
      · simp only [stepAt, if_pos hs]; exact Or.inl hm
      · simp only [stepAt, if_neg hs]
        left
        exact hm
    | cs1 => simp only [stepAt]; exact Or.inl hm
    | cs2 tmp => simp only [stepAt]; exact Or.inl hm
    | unl =>
      by_cases hk : c.key = (⟨true, none⟩ : Word n)
      · simp only [stepAt, if_pos hk]; exact Or.inl hm
      · simp only [stepAt, if_neg hk]; exact Or.inl hm
    | uncas =>
      by_cases hk : c.key = (⟨true, none⟩ : Word n)
      · simp only [stepAt, if_pos hk]; exact Or.inl hm
      · simp only [stepAt, if_neg hk]; exact Or.inl hm
    | popcas lv =>
      cases hhd : lv.head with
      | none => simp only [stepAt, hhd]; exact Or.inl hm
      | some mp =>
        by_cases hk : c.key = lv
        · simp only [stepAt, hhd, if_pos hk]
          have hch : chainb c.nextw (some mp) c.waitq = true := by
            have hc2 := h.chain
            rw [hk, hhd] at hc2
            exact hc2
          rcases chainb_some_cons _ _ _ hch with ⟨rest, hrest, _⟩
          have hm' : m ∈ mp :: rest := by rw [← hrest]; exact hm
          rcases List.mem_cons.mp hm' with he | hmr
          · right
            show Function.update c.sem mp (c.sem mp + 1) m = c.sem m + 1
            rw [he, Function.update_same]
          · left
            show m ∈ c.waitq.tail
            rw [hrest]
            exact hmr
        · simp only [stepAt, hhd, if_neg hk]; exact Or.inl hm

theorem C10_witness :
    chainb (initConfig 2).nextw (initConfig 2).key.head
      (initConfig 2).waitq = true ∧
    (∀ t lv, (initConfig 2).pc t = PC.acq lv →
      (stepThread (initConfig 2) t).waitq = (initConfig 2).waitq ∧
      (stepThread (initConfig 2) t).key.head = (initConfig 2).key.head) ∧
    (∀ t m, m ∈ (initConfig 2).waitq →
      m ∈ (stepThread (initConfig 2) t).waitq ∨
      (stepThread (initConfig 2) t).sem m = (initConfig 2).sem m + 1) :=
  C10_no_waiter_lost (initConfig 2) Reachable.init

end LockSema
